import Mathlib

/-!
Verification of the documentation-browser core of `ProgramaInteractivo.py`
(Tienda Aurelion).  The Python core is shallowly embedded: each Python
function is translated to an executable Lean definition over `String` /
`List Char`, with the file system passed explicitly.  Python `str` methods
used by the source (`lower`, `strip`, `splitlines`, `in`) are modelled for
ASCII case folding and `\n`-separated text, which is the fragment the
program's documents use.
-/

namespace Aurelion

/-- Model of Python whitespace (`str.strip` / regex `\s`), ASCII fragment:
space, tab, newline, carriage return, vertical tab, form feed. -/
def pyIsSpace (c : Char) : Bool :=
  c == ' ' || c == '\t' || c == '\n' || c == '\r' || c == Char.ofNat 11 || c == Char.ofNat 12

/-- Model of Python `str.lower` (ASCII case folding) on a character list. -/
def lowerL (l : List Char) : List Char :=
  l.map Char.toLower

/-- Model of Python `str.lower`. -/
def pyLower (s : String) : String :=
  String.mk (lowerL s.data)

/-- Strip `pyIsSpace` characters from both ends of a character list. -/
def stripList (l : List Char) : List Char :=
  ((l.dropWhile pyIsSpace).reverse.dropWhile pyIsSpace).reverse

/-- Model of Python `str.strip()` (no argument). -/
def pyStrip (s : String) : String :=
  String.mk (stripList s.data)

/-- Split a character list at every newline; like Python `str.split("\n")`,
always returns at least one (possibly empty) segment. -/
def splitNl : List Char → List (List Char)
  | [] => [[]]
  | c :: rest =>
    if c = '\n' then [] :: splitNl rest
    else
      match splitNl rest with
      | [] => [[c]]
      | h :: t => (c :: h) :: t

/-- Drop a trailing empty segment (present exactly when the text ends in a
newline, or is empty). -/
def dropLastEmpty (ps : List (List Char)) : List (List Char) :=
  match ps.getLast? with
  | some [] => ps.dropLast
  | _ => ps

/-- Model of Python `str.splitlines()` for `\n`-separated text:
`""` gives `[]`, a trailing newline does not create a final empty line. -/
def pySplitlines (s : String) : List String :=
  (dropLastEmpty (splitNl s.data)).map (fun l => String.mk l)

/-- `leadsList q s` is true when `q` is an initial segment of `s`
(decidable, executable). -/
def leadsList : List Char → List Char → Bool
  | [], _ => true
  | _ :: _, [] => false
  | a :: q, b :: s => a == b && leadsList q s

/-- Model of Python's substring test `q in s` on character lists
(`containsSub s q` = `q` occurs contiguously in `s`). -/
def containsSub : List Char → List Char → Bool
  | [], q => leadsList q []
  | c :: t, q => leadsList q (c :: t) || containsSub t q

/-- Declarative substring predicate (the spec's "contains as a substring"). -/
def isSubstr (q s : List Char) : Prop :=
  ∃ t u, s = t ++ q ++ u

end Aurelion

namespace Aurelion

/-- Maximal runs of non-whitespace characters (the word chunks of
`textwrap`), fuel-driven so it evaluates by `rfl`/`decide`. -/
def splitWordsF : Nat → List Char → List (List Char)
  | 0, _ => []
  | _, [] => []
  | fuel + 1, c :: rest =>
    if pyIsSpace c then splitWordsF fuel rest
    else (c :: rest.takeWhile (fun d => !pyIsSpace d)) ::
      splitWordsF fuel (rest.dropWhile (fun d => !pyIsSpace d))

/-- Words of a line, for the `textwrap.wrap` model. -/
def splitWords (l : List Char) : List (List Char) :=
  splitWordsF l.length l

/-- Consecutive chunks of size `n` (fuel-driven; used both to break long
words and to slice wrapped lines into pages, mirroring the slicing loop of
`paginate`, src lines 93-104). -/
def chunksAux {α : Type} (n : Nat) : Nat → List α → List (List α)
  | _, [] => []
  | 0, _ :: _ => []
  | fuel + 1, a :: l => ((a :: l).take n) :: chunksAux n fuel ((a :: l).drop n)

/-- Consecutive chunks of size `n` of a list. -/
def chunksL {α : Type} (n : Nat) (l : List α) : List (List α) :=
  chunksAux n l.length l

/-- Greedy line filling of the `textwrap.wrap` model: pack words into lines
of at most `width` characters separated by single spaces, breaking words
longer than `width` into `width`-sized pieces. -/
def packFuel (width : Nat) : Nat → List (List Char) → List Char → List (List Char)
  | 0, _, cur => if cur.isEmpty then [] else [cur]
  | _ + 1, [], cur => if cur.isEmpty then [] else [cur]
  | fuel + 1, w :: rest, cur =>
    if cur.isEmpty then
      if w.length ≤ width then packFuel width fuel rest w
      else
        let pieces := chunksL width w
        pieces.dropLast ++ packFuel width fuel rest (pieces.getLastD [])
    else
      if cur.length + 1 + w.length ≤ width then packFuel width fuel rest (cur ++ ' ' :: w)
      else cur :: packFuel width fuel (w :: rest) []

/-- Model of `textwrap.wrap(raw_line, width=cols)` (src line 90): greedy
word wrap with whitespace collapsing; whitespace-only input yields `[]`.
The hyphen-aware breaking of CPython's `textwrap` is not modelled; no
claim depends on the exact break positions. -/
def pyWrap (width : Nat) (s : String) : List String :=
  let ws := splitWords s.data
  (packFuel width (2 * ws.length + 1) ws []).map (fun l => String.mk l)

/-- `textwrap.wrap(raw_line, width=cols) or [""]` (src line 90): an empty
wrap result contributes one empty line. -/
def wrapOr1 (cols : Nat) (l : String) : List String :=
  let w := pyWrap cols l
  if w.isEmpty then [""] else w

/-- The wrapped-line sequence built by `paginate` (src lines 88-91): each
source line is wrapped independently and the results are concatenated. -/
def wrapLines (cols : Nat) (text : String) : List String :=
  (pySplitlines text).flatMap (fun l => wrapOr1 cols l)

/-- The pages printed by `paginate(text, title, width, height)`
(src lines 79-104) for an explicit positive viewport: the wrapped lines
sliced into consecutive chunks of `max 10 (rows - 3)` body lines. -/
def paginate (cols rows : Nat) (text : String) : List (List String) :=
  chunksL (max 10 (rows - 3)) (wrapLines cols text)

/-- The count of leading `#` characters of the stripped line. -/
def headerHashCount (line : String) : Nat :=
  ((pyStrip line).data.takeWhile (fun c => c == '#')).length

/-- The stripped line after its leading run of `#` characters. -/
def headerRest (line : String) : List Char :=
  (pyStrip line).data.drop (headerHashCount line)

/-- Model of `re.match(r"^(#{1,6})\s+(.*)", line.strip())` followed by
`len(m.group(1))` and `m.group(2).strip()` (src lines 71-74).  The regex
matches iff the stripped line starts with 1 to 6 `#` and the next character
is whitespace (the `#` run is maximal: with 7 or more `#`, no split of the
run lets `\s` match); the greedy `\s+` makes `group(2)` the rest after the
whitespace run. -/
def headerMatch (line : String) : Option (Nat × String) :=
  if (1 ≤ headerHashCount line ∧ headerHashCount line ≤ 6)
      ∧ (headerRest line).head?.any pyIsSpace = true then
    some (headerHashCount line,
      pyStrip (String.mk ((headerRest line).dropWhile pyIsSpace)))
  else none

/-- `build_toc(md_text)` (src lines 64-76): one `(level, title, line)` tuple
per header line, line numbers 1-based over all lines. -/
def build_toc (md_text : String) : List (Nat × String × Nat) :=
  (pySplitlines md_text).enum.filterMap (fun pr =>
    (headerMatch pr.2).map (fun h => (h.1, h.2, pr.1 + 1)))

/-- Header recognition as the spec words it: after trimming, the line starts
with 1 to 6 `#`, immediately followed by at least one whitespace character
and then non-empty remaining text; the level is the count of leading `#`
and the title is the remainder trimmed. -/
def headerSpec (line : String) : Option (Nat × String) :=
  if 1 ≤ headerHashCount line ∧ headerHashCount line ≤ 6
      ∧ (headerRest line).head?.any pyIsSpace = true
      ∧ (headerRest line).dropWhile pyIsSpace ≠ [] then
    some (headerHashCount line,
      pyStrip (String.mk ((headerRest line).dropWhile pyIsSpace)))
  else none

/-- The TOC as the spec describes it: one entry per spec-recognized header
line, 1-based line numbers counting every line. -/
def specTOC (t : String) : List (Nat × String × Nat) :=
  (pySplitlines t).enum.filterMap (fun pr =>
    (headerSpec pr.2).map (fun h => (h.1, h.2, pr.1 + 1)))

/-- Case-insensitive anchored match: the query (lowercased) is an initial
segment of the lowercased text. -/
def ciPref (q s : List Char) : Bool :=
  leadsList (lowerL q) (lowerL s)

/-- Segment decomposition performed by
`re.sub(re.escape(query), lambda m: f"[{m.group(0)}]", snippet, flags=re.IGNORECASE)`
(src lines 121-123): scan left to right; at a case-insensitive match of the
literal query, the matched original-cased characters form a flagged segment
and the scan resumes after them; otherwise one character is copied.  An
empty pattern matches at every position, including the end of the text. -/
def hlAux (q : List Char) : Nat → List Char → List (List Char × Bool)
  | 0, _ => []
  | _ + 1, [] => if q.isEmpty then [([], true)] else []
  | fuel + 1, c :: rest =>
    if ciPref q (c :: rest) then
      if q.isEmpty then ([], true) :: ([c], false) :: hlAux q fuel rest
      else ((c :: rest).take q.length, true) :: hlAux q fuel ((c :: rest).drop q.length)
    else ([c], false) :: hlAux q fuel rest

/-- The segments of the highlighting scan over `s`. -/
def hlSegs (q s : List Char) : List (List Char × Bool) :=
  hlAux q (s.length + 1) s

/-- Render the scan's segments: flagged segments are wrapped in brackets. -/
def renderSegs (segs : List (List Char × Bool)) : List Char :=
  segs.flatMap (fun sb => if sb.2 then '[' :: sb.1 ++ [']'] else sb.1)

/-- Model of the `re.sub` highlighting call of `search_all`
(src lines 121-123). -/
def highlight (q s : List Char) : List Char :=
  renderSegs (hlSegs q s)

/-- String version of `highlight`. -/
def highlightStr (q s : String) : String :=
  String.mk (highlight q.data s.data)

/-- `lines[start-1:end]` for `start = max(1, i - context)` and
`end = min(len(lines), i + context)` (src lines 117-119). -/
def snippetLines (lines : List String) (i context : Nat) : List String :=
  (lines.drop (max 1 (i - context) - 1)).take
    (min lines.length (i + context) - (max 1 (i - context) - 1))

/-- The matches contributed by one document in `search_all`
(src lines 112-124): one `(path, lineNumber, snippet)` per line whose
lowercased content contains the lowercased query, snippet = highlighted
join of the context window. -/
def docResults (query : String) (context : Nat) (p : String) (txt : String) :
    List (String × Nat × String) :=
  (pySplitlines txt).enum.filterMap (fun pr =>
    if containsSub (pyLower pr.2).data (pyLower query).data then
      some (p, pr.1 + 1,
        highlightStr query
          (String.intercalate "\n" (snippetLines (pySplitlines txt) (pr.1 + 1) context)))
    else none)

/-- `search_all(md_paths, query, context)` (src lines 107-125), with the
file system passed explicitly as `fs` (the `read_text` of src lines 43-46,
whose `errors="replace"` decoding never raises). -/
def search_all (fs : String → String) (md_paths : List String) (query : String)
    (context : Nat) : List (String × Nat × String) :=
  md_paths.flatMap (fun p => docResults query context p (fs p))

/-- `search_all` when `read_text` can raise `OSError` (src lines 43-46 and
111-112): `fs p = none` models a read failure; the exception propagates out
of `search_all`, so a single failing document loses the entire result. -/
def search_allE (fs : String → Option String) (md_paths : List String)
    (query : String) (context : Nat) : Option (List (String × Nat × String)) :=
  match md_paths with
  | [] => some []
  | p :: rest =>
    match fs p with
    | none => none
    | some txt =>
      (search_allE fs rest query context).map
        (fun r => docResults query context p txt ++ r)

/-- Spec-side: the 1-based numbers of the lines whose lowercased content
contains the lowercased query as a substring. -/
def specMatchLines (query : String) (txt : String) : List Nat :=
  ((List.range (pySplitlines txt).length).filter (fun j =>
    containsSub (pyLower ((pySplitlines txt).getD j "")).data (pyLower query).data)).map
    (fun j => j + 1)

/-- Spec-side: the context window as the claim words it — the document
lines from `max 1 (i - c)` to `min N (i + c)`, in order. -/
def specWindow (lines : List String) (i c : Nat) : List String :=
  (List.range' (max 1 (i - c)) (min lines.length (i + c) + 1 - max 1 (i - c))).map
    (fun j => lines.getD (j - 1) "")

/-- The number of case-insensitive occurrences (overlapping included) of
`q` in `s`. -/
def countOccCI (q s : List Char) : Nat :=
  ((List.range (s.length + 1)).filter (fun i =>
    leadsList (lowerL q) (lowerL (s.drop i)))).length

/-- The number of occurrences of the character `c` in `s`. -/
def countChar (c : Char) (s : String) : Nat :=
  s.data.count c

/-- File kinds of directory entries, as far as `os.path.isfile`
distinguishes them. -/
inductive FKind where
  | file
  | dir
  | symlinkFile
  | symlinkDir
  | symlinkBroken
deriving DecidableEq

/-- Model of `os.path.isfile(p)` (src line 54): true for regular files and
for symbolic links that resolve to regular files (`isfile` follows
symlinks), false for directories, symlinks to directories and dangling
symlinks. -/
def isfile : FKind → Bool
  | FKind.file => true
  | FKind.symlinkFile => true
  | _ => false

/-- One entry of `os.listdir(root)` together with what the file system
says about it. -/
structure DirEntry where
  name : String
  kind : FKind
deriving DecidableEq

/-- The index of the last `.` in a character list. -/
def lastDotIdx : List Char → Option Nat
  | [] => none
  | c :: rest =>
    match lastDotIdx rest with
    | some i => some (i + 1)
    | none => if c = '.' then some 0 else none

/-- Model of `os.path.splitext(name)[1]` for a bare file name: the suffix
starting at the last dot, except that a name whose every character before
the last dot is a dot (e.g. `".md"`, `"..md"`) has no extension. -/
def splitextExt (name : String) : String :=
  match lastDotIdx name.data with
  | none => ""
  | some i =>
    if (name.data.take i).all (fun c => c == '.') then ""
    else String.mk (name.data.drop i)

/-- `os.path.splitext(name)[1].lower()` (src line 56). -/
def extLower (name : String) : String :=
  pyLower (splitextExt name)

/-- `MD_EXT` (src line 22). -/
def mdExts : List String := [".md", ".markdown"]

/-- `IMG_EXT` (src line 23). -/
def imgExts : List String := [".png", ".jpg", ".jpeg", ".gif", ".svg"]

/-- `os.path.join(root, name)` for a root with no trailing separator. -/
def pjoin (root name : String) : String :=
  root ++ "/" ++ name

/-- The classification loop of `list_files` (src lines 52-60), processing
entries in the given order: regular files (symlinks followed) are appended
to the Markdown list or the image list according to their lowercased
extension; everything else is skipped. -/
def classify (root : String) : List DirEntry → List String × List String
  | [] => ([], [])
  | e :: rest =>
    let pr := classify root rest
    if isfile e.kind then
      if mdExts.contains (extLower e.name) then (pjoin root e.name :: pr.1, pr.2)
      else if imgExts.contains (extLower e.name) then (pr.1, pjoin root e.name :: pr.2)
      else pr
    else pr

/-- Entry selected into the Markdown list. -/
def isMDe (e : DirEntry) : Bool :=
  isfile e.kind && mdExts.contains (extLower e.name)

/-- Entry selected into the image list. -/
def isIMGe (e : DirEntry) : Bool :=
  isfile e.kind && !mdExts.contains (extLower e.name)
    && imgExts.contains (extLower e.name)

/-- `sorted(os.listdir(root))` (src line 52): names sorted in code-point
lexicographic order. -/
def sortEntries (l : List DirEntry) : List DirEntry :=
  l.mergeSort (fun a b => decide (a.name ≤ b.name))

/-- `list_files(root)` (src lines 49-61) over an explicit directory
listing. -/
def list_files (root : String) (listing : List DirEntry) : List String × List String :=
  classify root (sortEntries listing)

end Aurelion

namespace Aurelion

theorem chunksAux_flatten {α : Type} (n : Nat) (hn : 1 ≤ n) :
    ∀ (fuel : Nat) (l : List α), l.length ≤ fuel →
      (chunksAux n fuel l).flatten = l := by
  intro fuel
  induction fuel with
  | zero =>
    intro l hl
    have : l = [] := List.length_eq_zero.mp (Nat.le_zero.mp hl)
    subst this
    rfl
  | succ fuel ih =>
    intro l hl
    match l with
    | [] => rfl
    | a :: l =>
      have hdrop : ((a :: l).drop n).length ≤ fuel := by
        simp only [List.length_drop, List.length_cons] at *
        omega
      simp only [chunksAux, List.flatten_cons, ih _ hdrop, List.take_append_drop]

theorem chunksAux_mem {α : Type} (n : Nat) (hn : 1 ≤ n) :
    ∀ (fuel : Nat) (l : List α) (c : List α), c ∈ chunksAux n fuel l →
      c.length ≤ n ∧ c ≠ [] := by
  intro fuel
  induction fuel with
  | zero =>
    intro l c hc
    cases l <;> simp [chunksAux] at hc
  | succ fuel ih =>
    intro l c hc
    match l with
    | [] => simp [chunksAux] at hc
    | a :: l =>
      simp only [chunksAux, List.mem_cons] at hc
      rcases hc with h | h
      · subst h
        constructor
        · simpa using Nat.min_le_left n (l.length + 1)
        · have : 0 < ((a :: l).take n).length := by
            simp only [List.length_take, List.length_cons]
            omega
          exact List.ne_nil_of_length_pos this
      · exact ih _ _ h

theorem chunksAux_nil_iff {α : Type} (n : Nat) (fuel : Nat) (l : List α)
    (hl : l.length ≤ fuel) : chunksAux n fuel l = [] ↔ l = [] := by
  match fuel, l with
  | _, [] => simp [chunksAux]
  | 0, a :: l => simp at hl
  | fuel + 1, a :: l => simp [chunksAux]

theorem chunksAux_getD {α : Type} (n : Nat) (hn : 1 ≤ n) :
    ∀ (fuel : Nat) (l : List α), l.length ≤ fuel →
      ∀ i : Nat, i + 1 < (chunksAux n fuel l).length →
        ((chunksAux n fuel l).getD i []).length = n := by
  intro fuel
  induction fuel with
  | zero =>
    intro l hl i hi
    have : l = [] := List.length_eq_zero.mp (Nat.le_zero.mp hl)
    subst this
    simp [chunksAux] at hi
  | succ fuel ih =>
    intro l hl i hi
    match l with
    | [] => simp [chunksAux] at hi
    | a :: l =>
      simp only [chunksAux, List.length_cons] at hi
      match i with
      | 0 =>
        have htail : chunksAux n fuel ((a :: l).drop n) ≠ [] := by
          intro hemp
          rw [hemp] at hi
          simp at hi
        have hdl : ((a :: l).drop n).length ≤ fuel := by
          simp only [List.length_drop, List.length_cons] at *
          omega
        have hne : (a :: l).drop n ≠ [] := by
          intro hemp
          exact htail ((chunksAux_nil_iff n fuel _ hdl).mpr hemp)
        have hlen : n < (a :: l).length := by
          by_contra hcon
          push_neg at hcon
          exact hne (List.drop_eq_nil_of_le hcon)
        simp only [chunksAux, List.getD_cons_zero, List.length_take]
        omega
      | i + 1 =>
        have hdl : ((a :: l).drop n).length ≤ fuel := by
          simp only [List.length_drop, List.length_cons] at *
          omega
        simpa only [chunksAux, List.getD_cons_succ] using
          ih _ hdl i (by omega)

theorem wrapOr1_ne_nil (cols : Nat) (l : String) : wrapOr1 cols l ≠ [] := by
  unfold wrapOr1
  cases pyWrap cols l with
  | nil => simp
  | cons a t => simp

/-- C1: for every text and every positive viewport, pagination preserves all
content: the concatenation of the pages' body lines is exactly the
wrapped-line sequence, which word-wraps each source line independently;
every source line contributes at least one output line, and an empty source
line contributes exactly one empty output line. -/
theorem paginate_preserves_content (text : String) (cols rows : Nat)
    (hc : 0 < cols) (hr : 0 < rows) :
    (paginate cols rows text).flatten = wrapLines cols text
      ∧ wrapLines cols text = (pySplitlines text).flatMap (fun l => wrapOr1 cols l)
      ∧ (∀ l : String, wrapOr1 cols l ≠ [])
      ∧ wrapOr1 cols "" = [""] := by
  refine ⟨?_, rfl, fun l => wrapOr1_ne_nil cols l, rfl⟩
  exact chunksAux_flatten _ (by omega) _ _ le_rfl

theorem paginate_preserves_content_witness :
    0 < 6 ∧ 0 < 4 ∧
      ((paginate 6 4 "hello world\n\nabc").flatten = wrapLines 6 "hello world\n\nabc"
        ∧ wrapLines 6 "hello world\n\nabc"
            = (pySplitlines "hello world\n\nabc").flatMap (fun l => wrapOr1 6 l)
        ∧ (∀ l : String, wrapOr1 6 l ≠ [])
        ∧ wrapOr1 6 "" = [""]) :=
  ⟨by decide, by decide,
    paginate_preserves_content "hello world\n\nabc" 6 4 (by decide) (by decide)⟩

/-- C7: for every text and positive viewport the pages are exactly the
consecutive chunks, in order, of the wrapped-line sequence: their
concatenation is the whole sequence, every non-final page has exactly
`max 10 (rows - 3)` lines, every page has at most that many lines and is
non-empty, and the sequence is a finite list that ends after the last
chunk. -/
theorem paginate_pages_are_chunks (text : String) (cols rows : Nat)
    (hc : 0 < cols) (hr : 0 < rows) :
    (paginate cols rows text).flatten = wrapLines cols text
      ∧ (∀ p ∈ paginate cols rows text, p.length ≤ max 10 (rows - 3) ∧ p ≠ [])
      ∧ (∀ i : Nat, i + 1 < (paginate cols rows text).length →
          ((paginate cols rows text).getD i []).length = max 10 (rows - 3)) := by
  refine ⟨chunksAux_flatten _ (by omega) _ _ le_rfl, ?_, ?_⟩
  · intro p hp
    exact chunksAux_mem _ (by omega) _ _ _ hp
  · intro i hi
    exact chunksAux_getD _ (by omega) _ _ le_rfl i hi

theorem dropWhile_eq_cons_false (p : Char → Bool) :
    ∀ (m : List Char) (c : Char) (t : List Char), m.dropWhile p = c :: t → p c = false := by
  intro m
  induction m with
  | nil => intro c t h; simp at h
  | cons a m' ih =>
    intro c t h
    by_cases ha : p a
    · rw [List.dropWhile_cons, if_pos ha] at h
      exact ih c t h
    · rw [List.dropWhile_cons, if_neg ha] at h
      cases h
      simpa using ha

theorem stripList_getLast_false (l : List Char) (h : stripList l ≠ []) :
    pyIsSpace ((stripList l).getLast h) = false := by
  unfold stripList at h ⊢
  rw [List.getLast_reverse h]
  have hm : ((l.dropWhile pyIsSpace).reverse.dropWhile pyIsSpace) ≠ [] := by
    intro hemp
    rw [hemp] at h
    simp at h
  obtain ⟨c, t, hct⟩ := List.exists_cons_of_ne_nil hm
  have hc : pyIsSpace c = false := dropWhile_eq_cons_false pyIsSpace _ c t hct
  have h1 : ((l.dropWhile pyIsSpace).reverse.dropWhile pyIsSpace).head? = some c := by
    rw [hct]; rfl
  have h2 : ((l.dropWhile pyIsSpace).reverse.dropWhile pyIsSpace).head? =
      some (((l.dropWhile pyIsSpace).reverse.dropWhile pyIsSpace).head hm) :=
    List.head?_eq_head hm
  have h3 : ((l.dropWhile pyIsSpace).reverse.dropWhile pyIsSpace).head hm = c := by
    rw [h2] at h1
    exact Option.some.inj h1
  rw [h3]
  exact hc

theorem getLast_drop_eq (m : List Char) (n : Nat) (h : m.drop n ≠ []) :
    (m.drop n).getLast h
      = m.getLast (by intro hm; rw [hm] at h; simp at h) := by
  have hn : n < m.length := by
    by_contra hc
    push_neg at hc
    exact h (List.drop_eq_nil_of_le hc)
  rw [List.getLast_eq_getElem, List.getLast_eq_getElem]
  rw [List.getElem_drop]
  congr 1
  simp only [List.length_drop]
  omega

theorem dropWhile_ne_nil_of_getLast (p : Char → Bool) :
    ∀ (m : List Char) (h : m ≠ []), p (m.getLast h) = false → m.dropWhile p ≠ [] := by
  intro m
  induction m with
  | nil => intro h; simp at h
  | cons c t ih =>
    intro h hp
    by_cases hc : p c
    · rw [List.dropWhile_cons, if_pos hc]
      match t with
      | [] =>
        rw [List.getLast_singleton] at hp
        rw [hp] at hc
        simp at hc
      | d :: t' =>
        rw [List.getLast_cons (by simp)] at hp
        exact ih (by simp) hp
    · rw [List.dropWhile_cons, if_neg hc]
      simp

theorem headerRest_dropWhile_ne_nil (line : String)
    (h : (headerRest line).head?.any pyIsSpace = true) :
    (headerRest line).dropWhile pyIsSpace ≠ [] := by
  have hne : headerRest line ≠ [] := by
    intro hemp
    rw [hemp] at h
    simp at h
  have hlast : pyIsSpace ((headerRest line).getLast hne) = false := by
    unfold headerRest at hne ⊢
    rw [getLast_drop_eq _ _ hne]
    have hsne : stripList line.data ≠ [] := by
      intro hemp
      apply hne
      show (stripList line.data).drop (headerHashCount line) = []
      rw [hemp]
      simp
    exact stripList_getLast_false line.data hsne
  exact dropWhile_ne_nil_of_getLast pyIsSpace _ hne hlast

theorem headerMatch_eq_headerSpec (line : String) :
    headerMatch line = headerSpec line := by
  unfold headerMatch headerSpec
  by_cases hcond : (1 ≤ headerHashCount line ∧ headerHashCount line ≤ 6)
      ∧ (headerRest line).head?.any pyIsSpace = true
  · rw [if_pos hcond,
      if_pos ⟨hcond.1.1, hcond.1.2, hcond.2, headerRest_dropWhile_ne_nil line hcond.2⟩]
  · rw [if_neg hcond, if_neg (fun hcon => hcond ⟨⟨hcon.1, hcon.2.1⟩, hcon.2.2.1⟩)]

/-- C6: `build_toc` agrees, on every input, with the spec's description of
TOC extraction (one `(level, title, lineNumber)` entry exactly for each line
that after trimming starts with 1-6 `#` followed by whitespace and non-empty
text, 1-based line numbers counting every line, no entry for other lines);
on the document with lines `"# A"`, `"text"`, `"## B"` it returns
`[(1, "A", 1), (2, "B", 3)]`. -/
theorem build_toc_matches_spec (t : String) :
    build_toc t = specTOC t
      ∧ build_toc "# A\ntext\n## B" = [(1, "A", 1), (2, "B", 3)] := by
  constructor
  · unfold build_toc specTOC
    exact List.filterMap_congr (fun pr _ => by rw [headerMatch_eq_headerSpec])
  · decide

theorem paginate_pages_are_chunks_witness :
    0 < 6 ∧ 0 < 4 ∧
      ((paginate 6 4 "one two three four five\nsix").flatten
          = wrapLines 6 "one two three four five\nsix"
        ∧ (∀ p ∈ paginate 6 4 "one two three four five\nsix",
            p.length ≤ max 10 (4 - 3) ∧ p ≠ [])
        ∧ (∀ i : Nat, i + 1 < (paginate 6 4 "one two three four five\nsix").length →
            ((paginate 6 4 "one two three four five\nsix").getD i []).length
              = max 10 (4 - 3))) :=
  ⟨by decide, by decide,
    paginate_pages_are_chunks "one two three four five\nsix" 6 4 (by decide) (by decide)⟩

end Aurelion

namespace Aurelion

theorem drop_take_eq_range_map (l : List String) :
    ∀ (k a : Nat), a + k ≤ l.length →
      (l.drop a).take k = (List.range' a k).map (fun j => l.getD j "") := by
  intro k
  induction k with
  | zero => intro a _; simp
  | succ k ih =>
    intro a h
    have ha : a < l.length := by omega
    rw [List.drop_eq_getElem_cons ha]
    rw [List.range'_succ]
    rw [List.take_succ_cons, List.map_cons]
    rw [ih (a + 1) (by omega), List.getD_eq_getElem l "" ha]

theorem snippetLines_eq_specWindow (lines : List String) (i c : Nat)
    (h1 : 1 ≤ i) (h2 : i ≤ lines.length) :
    snippetLines lines i c = specWindow lines i c := by
  unfold snippetLines specWindow
  have hs1 : max 1 (i - c) ≤ i := by omega
  have he1 : i ≤ min lines.length (i + c) := by omega
  have hlen : min lines.length (i + c) ≤ lines.length := by omega
  rw [drop_take_eq_range_map lines _ _ (by omega)]
  have hnum : min lines.length (i + c) - (max 1 (i - c) - 1)
      = min lines.length (i + c) + 1 - max 1 (i - c) := by omega
  rw [hnum]
  apply List.ext_getElem
  · simp
  · intro n hn1 hn2
    simp only [List.getElem_map, List.getElem_range']
    congr 1
    omega

theorem snippetLines_context_zero (lines : List String) (i : Nat)
    (h1 : 1 ≤ i) (h2 : i ≤ lines.length) :
    snippetLines lines i 0 = [lines.getD (i - 1) ""] := by
  unfold snippetLines
  have ha : max 1 (i - 0) = i := by omega
  have hb : min lines.length (i + 0) = i := by omega
  rw [ha, hb]
  have hc : i - (i - 1) = 1 := by omega
  rw [hc]
  have hd : i - 1 < lines.length := by omega
  rw [List.drop_eq_getElem_cons hd]
  rw [List.take_succ_cons, List.take_zero]
  rw [List.getD_eq_getElem lines "" hd]

/-- C5: for a match on line `i` (`1 ≤ i ≤ N`) with context `c`, the slice
taken by `search_all` is exactly the document lines from `max 1 (i-c)` to
`min N (i+c)` in original order; with context `0` it is exactly the matched
line, and for a match on line 1 with context 1 it is the first
`min N 2` lines (lines 1-2, clipped). -/
theorem snippet_window_matches_spec (lines : List String) (i c : Nat)
    (h1 : 1 ≤ i) (h2 : i ≤ lines.length) :
    snippetLines lines i c = specWindow lines i c
      ∧ snippetLines lines i 0 = [lines.getD (i - 1) ""]
      ∧ snippetLines lines 1 1 = lines.take (min lines.length 2) := by
  refine ⟨snippetLines_eq_specWindow lines i c h1 h2,
    snippetLines_context_zero lines i h1 h2, ?_⟩
  unfold snippetLines
  have ha : max 1 (1 - 1) - 1 = 0 := by omega
  rw [ha]
  simp

theorem snippet_window_matches_spec_witness :
    (1 ≤ 2 ∧ 2 ≤ (["a", "b", "c"] : List String).length) ∧
      (snippetLines ["a", "b", "c"] 2 1 = specWindow ["a", "b", "c"] 2 1
        ∧ snippetLines ["a", "b", "c"] 2 0 = [(["a", "b", "c"] : List String).getD (2 - 1) ""]
        ∧ snippetLines ["a", "b", "c"] 1 1
            = (["a", "b", "c"] : List String).take (min (["a", "b", "c"] : List String).length 2)) :=
  ⟨⟨by decide, by decide⟩,
    snippet_window_matches_spec ["a", "b", "c"] 2 1 (by decide) (by decide)⟩

end Aurelion

namespace Aurelion

theorem leadsList_iff : ∀ (q s : List Char), leadsList q s = true ↔ ∃ u, s = q ++ u := by
  intro q
  induction q with
  | nil => intro s; simp [leadsList]
  | cons a q ih =>
    intro s
    cases s with
    | nil => simp [leadsList]
    | cons b t =>
      show (a == b && leadsList q t) = true ↔ _
      simp only [Bool.and_eq_true, beq_iff_eq, ih, List.cons_append, List.cons.injEq]
      constructor
      · rintro ⟨hab, u, hu⟩
        exact ⟨u, hab.symm, hu⟩
      · rintro ⟨u, hba, hu⟩
        exact ⟨hba.symm, u, hu⟩

theorem containsSub_iff : ∀ (q s : List Char), containsSub s q = true ↔ isSubstr q s := by
  intro q s
  induction s with
  | nil =>
    show leadsList q [] = true ↔ _
    rw [leadsList_iff]
    unfold isSubstr
    constructor
    · rintro ⟨u, hu⟩
      exact ⟨[], u, by simpa using hu⟩
    · rintro ⟨t, u, hu⟩
      have h0 : t = [] ∧ q = [] ∧ u = [] := by
        have := hu.symm
        simp only [List.append_eq_nil, List.append_assoc] at this
        exact ⟨this.1, this.2.1, this.2.2⟩
      exact ⟨[], by simp [h0.2.1]⟩
  | cons c t ih =>
    show (leadsList q (c :: t) || containsSub t q) = true ↔ _
    rw [Bool.or_eq_true, leadsList_iff, ih]
    unfold isSubstr
    constructor
    · rintro (⟨u, hu⟩ | ⟨t', u, hu⟩)
      · exact ⟨[], u, by simpa using hu⟩
      · exact ⟨c :: t', u, by rw [List.cons_append, List.cons_append, ← hu]⟩
    · rintro ⟨t', u, hu⟩
      cases t' with
      | nil => exact Or.inl ⟨u, by simpa using hu⟩
      | cons d t'' =>
        simp only [List.cons_append, List.cons.injEq] at hu
        exact Or.inr ⟨t'', u, hu.2⟩

theorem containsSub_nil_query : ∀ s : List Char, containsSub s [] = true := by
  intro s
  induction s with
  | nil => rfl
  | cons c t ih =>
    show (leadsList [] (c :: t) || containsSub t []) = true
    rw [ih]
    simp [leadsList]

theorem filterMap_enumFrom {β : Type} (f : Nat → String → Option β) :
    ∀ (l : List String) (k : Nat),
      (List.enumFrom k l).filterMap (fun pr => f pr.1 pr.2)
        = (List.range' k l.length).filterMap (fun j => f j (l.getD (j - k) "")) := by
  intro l
  induction l with
  | nil => intro k; rfl
  | cons x t ih =>
    intro k
    have h1 : List.enumFrom k (x :: t) = (k, x) :: List.enumFrom (k + 1) t := rfl
    rw [h1, List.filterMap_cons, List.length_cons, List.range'_succ, List.filterMap_cons]
    have hcong : (List.range' (k + 1) t.length).filterMap
          (fun j => f j ((x :: t).getD (j - k) ""))
        = (List.range' (k + 1) t.length).filterMap
          (fun j => f j (t.getD (j - (k + 1)) "")) := by
      apply List.filterMap_congr
      intro j hj
      have hjk : k + 1 ≤ j := by
        have hm := List.mem_range'_1.mp hj
        omega
      have hidx : j - k = (j - (k + 1)) + 1 := by omega
      rw [hidx, List.getD_cons_succ]
    rw [ih (k + 1), ← hcong, Nat.sub_self, List.getD_cons_zero]

theorem filterMap_ite_eq_map_filter {β : Type} (P : Nat → Bool) (g : Nat → β) :
    ∀ l : List Nat,
      (l.filterMap (fun a => if P a = true then some (g a) else none))
        = (l.filter P).map g := by
  intro l
  induction l with
  | nil => rfl
  | cons a t ih =>
    rw [List.filterMap_cons, List.filter_cons]
    cases hP : P a
    · simp only [Bool.false_eq_true, if_false, ih]
    · simp only [if_true, List.map_cons, ih]

theorem docResults_proj (q : String) (ctx : Nat) (p : String) (txt : String) :
    (docResults q ctx p txt).map (fun r => (r.1, r.2.1))
      = ((List.range (pySplitlines txt).length).filter (fun j =>
          containsSub (pyLower ((pySplitlines txt).getD j "")).data (pyLower q).data)).map
          (fun j => (p, j + 1)) := by
  unfold docResults
  rw [List.map_filterMap]
  have hstep : ∀ pr : Nat × String,
      ((if containsSub (pyLower pr.2).data (pyLower q).data then
          some (p, pr.1 + 1, highlightStr q
            (String.intercalate "\n" (snippetLines (pySplitlines txt) (pr.1 + 1) ctx)))
        else none).map (fun r : String × Nat × String => (r.1, r.2.1)))
      = (if containsSub (pyLower pr.2).data (pyLower q).data then some (p, pr.1 + 1)
         else none) := by
    intro pr
    by_cases hc : containsSub (pyLower pr.2).data (pyLower q).data
    · rw [if_pos hc, if_pos hc]; rfl
    · rw [if_neg hc, if_neg hc]; rfl
  rw [List.filterMap_congr (fun pr _ => hstep pr)]
  have henum : (pySplitlines txt).enum = List.enumFrom 0 (pySplitlines txt) := rfl
  rw [henum, filterMap_enumFrom
    (fun j line => if containsSub (pyLower line).data (pyLower q).data then some (p, j + 1)
      else none) (pySplitlines txt) 0]
  rw [← List.range_eq_range']
  exact filterMap_ite_eq_map_filter
    (fun j => containsSub (pyLower ((pySplitlines txt).getD (j - 0) "")).data (pyLower q).data)
    (fun j => (p, j + 1)) _

/-- C4: for every file system, document sequence, query and context,
`search_all` yields exactly one match per line whose lowercased content
contains the lowercased query as a substring, with 1-based line numbers, in
document order and then line order, with no truncation; `containsSub` is
the substring relation. -/
theorem search_all_matches_spec (fs : String → String) (paths : List String)
    (query : String) (context : Nat) :
    (search_all fs paths query context).map (fun r => (r.1, r.2.1))
        = paths.flatMap (fun p => (specMatchLines query (fs p)).map (fun n => (p, n)))
      ∧ (∀ (q s : List Char), containsSub s q = true ↔ isSubstr q s) := by
  constructor
  · unfold search_all
    rw [List.map_flatMap]
    refine congrArg (List.flatMap paths) (funext fun p => ?_)
    rw [docResults_proj]
    unfold specMatchLines
    rw [List.map_map]
    rfl
  · exact containsSub_iff

/-- C10: the engine has no minimum query length: with the empty query the
substring test succeeds on every line (empty lines included), so
`search_all` returns one match for every line of every document, in
order. -/
theorem search_all_empty_query (fs : String → String) (paths : List String)
    (context : Nat) :
    (search_all fs paths "" context).map (fun r => (r.1, r.2.1))
        = paths.flatMap (fun p =>
            (List.range (pySplitlines (fs p)).length).map (fun j => (p, j + 1)))
      ∧ (∀ line : String, containsSub (pyLower line).data (pyLower "").data = true) := by
  have hnil : (pyLower "").data = ([] : List Char) := rfl
  constructor
  · unfold search_all
    rw [List.map_flatMap]
    refine congrArg (List.flatMap paths) (funext fun p => ?_)
    rw [docResults_proj]
    have hall : ∀ j ∈ List.range (pySplitlines (fs p)).length,
        containsSub (pyLower ((pySplitlines (fs p)).getD j "")).data (pyLower "").data
          = true := by
      intro j _
      rw [hnil]
      exact containsSub_nil_query _
    rw [List.filter_eq_self.mpr hall]
  · intro line
    rw [hnil]
    exact containsSub_nil_query _

end Aurelion

namespace Aurelion

theorem hlAux_content (q : List Char) :
    ∀ (fuel : Nat) (s : List Char), s.length < fuel →
      ((hlAux q fuel s).map Prod.fst).flatten = s := by
  intro fuel
  induction fuel with
  | zero => intro s h; omega
  | succ fuel ih =>
    intro s h
    match s with
    | [] =>
      show ((if q.isEmpty then [(([] : List Char), true)] else []).map Prod.fst).flatten = []
      by_cases hq : q.isEmpty
      · rw [if_pos hq]; rfl
      · rw [if_neg hq]; rfl
    | c :: rest =>
      show ((if ciPref q (c :: rest) then
          if q.isEmpty then ([], true) :: ([c], false) :: hlAux q fuel rest
          else ((c :: rest).take q.length, true) :: hlAux q fuel ((c :: rest).drop q.length)
        else ([c], false) :: hlAux q fuel rest).map Prod.fst).flatten = c :: rest
      have hrest : rest.length < fuel := by
        simp only [List.length_cons] at h
        omega
      by_cases hp : ciPref q (c :: rest)
      · by_cases hq : q.isEmpty
        · rw [if_pos hp, if_pos hq]
          simp only [List.map_cons, List.flatten_cons]
          rw [ih rest hrest]
          rfl
        · rw [if_pos hp, if_neg hq]
          simp only [List.map_cons, List.flatten_cons]
          have hql : 1 ≤ q.length := by
            cases q with
            | nil => simp at hq
            | cons _ _ => simp
          have hlt : ((c :: rest).drop q.length).length < fuel := by
            simp only [List.length_drop, List.length_cons]
            simp only [List.length_cons] at h
            omega
          rw [ih _ hlt, List.take_append_drop]
      · rw [if_neg hp]
        simp only [List.map_cons, List.flatten_cons]
        rw [ih rest hrest]
        rfl

theorem hlAux_flagged (q : List Char) :
    ∀ (fuel : Nat) (s : List Char) (sb : List Char × Bool),
      sb ∈ hlAux q fuel s → sb.2 = true → lowerL sb.1 = lowerL q := by
  intro fuel
  induction fuel with
  | zero => intro s sb hsb; simp [hlAux] at hsb
  | succ fuel ih =>
    intro s sb hsb hflag
    match s with
    | [] =>
      by_cases hq : q.isEmpty
      · have hred : hlAux q (fuel + 1) [] = [(([] : List Char), true)] := by
          show (if q.isEmpty then [(([] : List Char), true)] else []) = _
          rw [if_pos hq]
        rw [hred] at hsb
        simp only [List.mem_singleton] at hsb
        subst hsb
        have hqnil : q = [] := by
          cases q with
          | nil => rfl
          | cons _ _ => simp at hq
        rw [hqnil]
      · have hred : hlAux q (fuel + 1) [] = [] := by
          show (if q.isEmpty then [(([] : List Char), true)] else []) = _
          rw [if_neg hq]
        rw [hred] at hsb
        simp at hsb
    | c :: rest =>
      have hred : hlAux q (fuel + 1) (c :: rest)
          = (if ciPref q (c :: rest) then
              if q.isEmpty then ([], true) :: ([c], false) :: hlAux q fuel rest
              else ((c :: rest).take q.length, true) :: hlAux q fuel ((c :: rest).drop q.length)
            else ([c], false) :: hlAux q fuel rest) := rfl
      rw [hred] at hsb
      by_cases hp : ciPref q (c :: rest)
      · by_cases hq : q.isEmpty
        · rw [if_pos hp, if_pos hq] at hsb
          have hqnil : q = [] := by
            cases q with
            | nil => rfl
            | cons _ _ => simp at hq
          rcases List.mem_cons.mp hsb with h1 | h2
          · subst h1
            rw [hqnil]
          · rcases List.mem_cons.mp h2 with h3 | h4
            · subst h3
              simp at hflag
            · exact ih rest sb h4 hflag
        · rw [if_pos hp, if_neg hq] at hsb
          rcases List.mem_cons.mp hsb with h1 | h2
          · subst h1
            obtain ⟨u, hu⟩ := (leadsList_iff _ _).mp hp
            show lowerL ((c :: rest).take q.length) = lowerL q
            unfold lowerL at hu ⊢
            rw [List.map_take, hu]
            rw [show q.length = (q.map Char.toLower).length from (List.length_map _ _).symm]
            exact List.take_left _ _
          · exact ih _ sb h2 hflag
      · rw [if_neg hp] at hsb
        rcases List.mem_cons.mp hsb with h1 | h2
        · subst h1
          simp at hflag
        · exact ih rest sb h2 hflag

theorem hlAux_finds (q : List Char) (hq : q ≠ []) :
    ∀ (fuel : Nat) (s : List Char), s.length < fuel →
      (∃ i, leadsList (lowerL q) (lowerL (s.drop i)) = true) →
      ∃ sb ∈ hlAux q fuel s, sb.2 = true := by
  intro fuel
  induction fuel with
  | zero => intro s h; omega
  | succ fuel ih =>
    intro s h hocc
    match s with
    | [] =>
      obtain ⟨i, hi⟩ := hocc
      rw [List.drop_nil] at hi
      cases q with
      | nil => exact absurd rfl hq
      | cons a q' => simp [lowerL, leadsList] at hi
    | c :: rest =>
      have hred : hlAux q (fuel + 1) (c :: rest)
          = (if ciPref q (c :: rest) then
              if q.isEmpty then ([], true) :: ([c], false) :: hlAux q fuel rest
              else ((c :: rest).take q.length, true) :: hlAux q fuel ((c :: rest).drop q.length)
            else ([c], false) :: hlAux q fuel rest) := rfl
      by_cases hp : ciPref q (c :: rest)
      · have hq' : ¬(q.isEmpty = true) := by
          cases q with
          | nil => exact absurd rfl hq
          | cons _ _ => simp
        refine ⟨((c :: rest).take q.length, true), ?_, rfl⟩
        rw [hred, if_pos hp, if_neg hq']
        exact List.mem_cons_self _ _
      · obtain ⟨i, hi⟩ := hocc
        match i with
        | 0 =>
          rw [List.drop_zero] at hi
          exact absurd hi (by simpa [ciPref] using hp)
        | i + 1 =>
          have hocc' : ∃ i', leadsList (lowerL q) (lowerL (rest.drop i')) = true :=
            ⟨i, by simpa using hi⟩
          obtain ⟨sb, hsb, hfl⟩ := ih rest (by simp only [List.length_cons] at h; omega) hocc'
          refine ⟨sb, ?_, hfl⟩
          rw [hred, if_neg hp]
          exact List.mem_cons_of_mem _ hsb

end Aurelion

namespace Aurelion

/-- C2 (amended): highlighting is a single left-to-right non-overlapping
scan: the snippet decomposes into segments whose concatenation is exactly
the original text (original casing preserved, nothing altered but the
inserted brackets); every bracket-wrapped segment is an original-cased,
case-insensitive copy of the query; if the query occurs case-insensitively
at all, at least one occurrence is wrapped; and for query `"cat"` on the
line `"The Cat sat"` the produced snippet is `"The [Cat] sat"`. -/
theorem highlight_wraps_scan (q s : String) :
    ((hlSegs q.data s.data).map Prod.fst).flatten = s.data
      ∧ (∀ sb ∈ hlSegs q.data s.data, sb.2 = true → lowerL sb.1 = lowerL q.data)
      ∧ highlightStr q s = String.mk (renderSegs (hlSegs q.data s.data))
      ∧ (q.data ≠ [] →
          (∃ i, leadsList (lowerL q.data) (lowerL (s.data.drop i)) = true) →
          ∃ sb ∈ hlSegs q.data s.data, sb.2 = true)
      ∧ search_all (fun _ => "The Cat sat") ["d.md"] "cat" 1
          = [("d.md", 1, "The [Cat] sat")] :=
  ⟨hlAux_content q.data _ s.data (Nat.lt_succ_self _),
    fun sb hsb hf => hlAux_flagged q.data _ s.data sb hsb hf,
    rfl,
    fun hq hocc => hlAux_finds q.data hq _ s.data (Nat.lt_succ_self _) hocc,
    by decide⟩

theorem highlight_wraps_scan_witness :
    ("aa" : String).data ≠ [] ∧
      (∃ i, leadsList (lowerL ("aa" : String).data)
        (lowerL (("aaa" : String).data.drop i)) = true) ∧
      ∃ sb ∈ hlSegs "aa".data "aaa".data, sb.2 = true :=
  ⟨by decide, ⟨0, by decide⟩,
    (highlight_wraps_scan "aa" "aaa").2.2.2.1 (by decide) ⟨0, by decide⟩⟩

/-- C2 counterexample: searching the document `"aaa"` for `"aa"` yields the
snippet `"[aa]a"`: the text has two case-insensitive occurrences of the
query but the output has a single opening bracket, so the occurrence
starting at index 1 (overlapping the first match) is not wrapped — not
every case-insensitive occurrence is wrapped. -/
theorem highlight_counterexample :
    search_all (fun _ => "aaa") ["d.md"] "aa" 0 = [("d.md", 1, "[aa]a")]
      ∧ countOccCI "aa".data "aaa".data = 2
      ∧ countChar '[' "[aa]a" = 1 := by
  exact ⟨by decide, by decide, by decide⟩

/-- C3: the code evaluated at a failing input: with a file system where
reading "missing.md" raises, `search_all` over `["a.md", "missing.md"]`
fails as a whole and returns no matches at all, although the same search
over the readable document alone returns its match — the failing document
is not skipped. -/
theorem search_allE_aborts_on_read_failure :
    search_allE (fun p => if p = "a.md" then some "hit here" else none)
        ["a.md", "missing.md"] "hit" 1 = none
      ∧ search_allE (fun p => if p = "a.md" then some "hit here" else none)
        ["a.md"] "hit" 1 = some [("a.md", 1, "[hit] here")] := by
  exact ⟨by decide, by decide⟩

theorem classify_eq (root : String) :
    ∀ l : List DirEntry,
      classify root l
        = ((l.filter isMDe).map (fun e => pjoin root e.name),
           (l.filter isIMGe).map (fun e => pjoin root e.name)) := by
  intro l
  induction l with
  | nil => rfl
  | cons e rest ih =>
    simp only [classify, ih]
    by_cases hf : isfile e.kind
    · by_cases hmd : extLower e.name ∈ mdExts
      · simp [List.filter_cons, isMDe, isIMGe, hf, hmd]
      · by_cases himg : extLower e.name ∈ imgExts
        · simp [List.filter_cons, isMDe, isIMGe, hf, hmd, himg]
        · simp [List.filter_cons, isMDe, isIMGe, hf, hmd, himg]
    · simp [List.filter_cons, isMDe, isIMGe, hf]

theorem sortEntries_sorted (l : List DirEntry) :
    List.Pairwise (fun a b : DirEntry => a.name ≤ b.name) (sortEntries l) := by
  have h := @List.sorted_mergeSort DirEntry (fun a b : DirEntry => decide (a.name ≤ b.name))
    (fun a b c hab hbc => by
      simp only [decide_eq_true_eq] at *
      exact le_trans hab hbc)
    (fun a b => by
      simp only [Bool.or_eq_true, decide_eq_true_eq]
      exact le_total a.name b.name)
    l
  exact h.imp (fun hab => by simpa using hab)

theorem sortEntries_perm (l : List DirEntry) : (sortEntries l).Perm l :=
  List.mergeSort_perm l _

theorem str_ext {a b : String} (h : a.data = b.data) : a = b := by
  cases a
  cases b
  exact congrArg String.mk h

theorem pjoin_inj (root : String) {a b : String} (h : pjoin root a = pjoin root b) :
    a = b := by
  unfold pjoin at h
  have hd := congrArg String.data h
  simp only [String.data_append] at hd
  exact str_ext (List.append_cancel_left hd)

theorem mem_list_files_fst (root : String) (listing : List DirEntry) (p : String) :
    p ∈ (list_files root listing).1
      ↔ ∃ e ∈ listing, isfile e.kind = true
          ∧ mdExts.contains (extLower e.name) = true ∧ p = pjoin root e.name := by
  unfold list_files
  rw [classify_eq]
  simp only [List.mem_map, List.mem_filter, isMDe, Bool.and_eq_true,
    (sortEntries_perm listing).mem_iff]
  constructor
  · rintro ⟨e, ⟨he, hfl, hmd⟩, hp⟩
    exact ⟨e, he, hfl, hmd, hp.symm⟩
  · rintro ⟨e, he, hfl, hmd, hp⟩
    exact ⟨e, ⟨he, hfl, hmd⟩, hp.symm⟩

theorem mem_list_files_snd (root : String) (listing : List DirEntry) (p : String) :
    p ∈ (list_files root listing).2
      ↔ ∃ e ∈ listing, isfile e.kind = true
          ∧ mdExts.contains (extLower e.name) = false
          ∧ imgExts.contains (extLower e.name) = true ∧ p = pjoin root e.name := by
  unfold list_files
  rw [classify_eq]
  simp only [List.mem_map, List.mem_filter, isIMGe, Bool.and_eq_true,
    Bool.not_eq_true', (sortEntries_perm listing).mem_iff]
  constructor
  · rintro ⟨e, ⟨he, ⟨hfl, hmd⟩, himg⟩, hp⟩
    exact ⟨e, he, hfl, hmd, himg, hp.symm⟩
  · rintro ⟨e, he, hfl, hmd, himg, hp⟩
    exact ⟨e, ⟨he, ⟨hfl, hmd⟩, himg⟩, hp.symm⟩

/-- C8: for every directory listing, `list_files` returns two lists of
joined paths whose file names are each sorted ascending in the code-point
(case-sensitive lexicographic) string order; membership in each list is
decided by the case-insensitively lowercased extension (`mdExts` for
Markdown, `imgExts` for images, tested after the Markdown set); and no
path appears in both lists. -/
theorem list_files_sorted_disjoint (root : String) (listing : List DirEntry) :
    (∃ ms gs : List String,
        list_files root listing
            = (ms.map (fun n => pjoin root n), gs.map (fun n => pjoin root n))
          ∧ List.Pairwise (fun a b : String => a ≤ b) ms
          ∧ List.Pairwise (fun a b : String => a ≤ b) gs)
      ∧ (∀ p, p ∈ (list_files root listing).1
            ↔ ∃ e ∈ listing, isfile e.kind = true
                ∧ mdExts.contains (extLower e.name) = true ∧ p = pjoin root e.name)
      ∧ (∀ p, p ∈ (list_files root listing).2
            ↔ ∃ e ∈ listing, isfile e.kind = true
                ∧ mdExts.contains (extLower e.name) = false
                ∧ imgExts.contains (extLower e.name) = true ∧ p = pjoin root e.name)
      ∧ (∀ p, p ∈ (list_files root listing).1 → p ∉ (list_files root listing).2) := by
  refine ⟨?_, fun p => mem_list_files_fst root listing p,
    fun p => mem_list_files_snd root listing p, ?_⟩
  · refine ⟨((sortEntries listing).filter isMDe).map (fun e => e.name),
      ((sortEntries listing).filter isIMGe).map (fun e => e.name), ?_, ?_, ?_⟩
    · unfold list_files
      rw [classify_eq]
      rw [List.map_map, List.map_map]
      rfl
    · exact List.pairwise_map.mpr
        (((sortEntries_sorted listing).filter isMDe).imp (fun hab => hab))
    · exact List.pairwise_map.mpr
        (((sortEntries_sorted listing).filter isIMGe).imp (fun hab => hab))
  · intro p h1 h2
    obtain ⟨e1, _, _, hmd1, hp1⟩ := (mem_list_files_fst root listing p).mp h1
    obtain ⟨e2, _, _, hmd2, _, hp2⟩ := (mem_list_files_snd root listing p).mp h2
    have hname : e1.name = e2.name := pjoin_inj root (hp1.symm.trans hp2)
    rw [hname] at hmd1
    rw [hmd1] at hmd2
    exact absurd hmd2 (by simp)

/-- C9 counterexample: a symbolic link that resolves to a regular file is
not excluded: for a listing holding the single entry `a.md` of kind
`symlinkFile`, the joined path appears in the Markdown list even though the
entry is a symbolic link, not a regular file. -/
theorem list_files_symlink_included :
    ("r/a.md" ∈ (list_files "r" [⟨"a.md", FKind.symlinkFile⟩]).1)
      ∧ (⟨"a.md", FKind.symlinkFile⟩ : DirEntry).kind ≠ FKind.file := by
  constructor
  · exact (mem_list_files_fst "r" [⟨"a.md", FKind.symlinkFile⟩] "r/a.md").mpr
      ⟨⟨"a.md", FKind.symlinkFile⟩, by simp, by decide, by decide, by decide⟩
  · decide

/-- C9 (amended): every path returned by `list_files` comes from a listing
entry that `os.path.isfile` accepts — a regular file or a symlink resolving
to a regular file — whose lowercased extension is in the Markdown or image
set; hence subdirectories, symlinks to directories, dangling symlinks and
files with other extensions never appear in either list (but symlinks that
resolve to regular files are included). -/
theorem list_files_excluded_entries (root : String) (listing : List DirEntry)
    (p : String)
    (h : p ∈ (list_files root listing).1 ∨ p ∈ (list_files root listing).2) :
    ∃ e ∈ listing, p = pjoin root e.name ∧ isfile e.kind = true
        ∧ (mdExts.contains (extLower e.name) = true
            ∨ imgExts.contains (extLower e.name) = true)
        ∧ (e.kind = FKind.file ∨ e.kind = FKind.symlinkFile) := by
  have hkind : ∀ k : FKind, isfile k = true → k = FKind.file ∨ k = FKind.symlinkFile := by
    intro k hk
    cases k with
    | file => exact Or.inl rfl
    | symlinkFile => exact Or.inr rfl
    | dir => simp [isfile] at hk
    | symlinkDir => simp [isfile] at hk
    | symlinkBroken => simp [isfile] at hk
  rcases h with h1 | h2
  · obtain ⟨e, he, hfl, hmd, hp⟩ := (mem_list_files_fst root listing p).mp h1
    exact ⟨e, he, hp, hfl, Or.inl hmd, hkind e.kind hfl⟩
  · obtain ⟨e, he, hfl, _, himg, hp⟩ := (mem_list_files_snd root listing p).mp h2
    exact ⟨e, he, hp, hfl, Or.inr himg, hkind e.kind hfl⟩

theorem list_files_excluded_entries_witness :
    ∃ e ∈ [(⟨"x.md", FKind.file⟩ : DirEntry)], "r/x.md" = pjoin "r" e.name
        ∧ isfile e.kind = true
        ∧ (mdExts.contains (extLower e.name) = true
            ∨ imgExts.contains (extLower e.name) = true)
        ∧ (e.kind = FKind.file ∨ e.kind = FKind.symlinkFile) :=
  list_files_excluded_entries "r" [⟨"x.md", FKind.file⟩] "r/x.md"
    (Or.inl ((mem_list_files_fst "r" [⟨"x.md", FKind.file⟩] "r/x.md").mpr
      ⟨⟨"x.md", FKind.file⟩, by simp, by decide, by decide, by decide⟩))

end Aurelion
